import Mathlib

/-!
Shallow embedding of the flashcard scheduling core
(`src/flashcard-app/backend/src/logic/algorithm.ts`) and proofs about it.

JavaScript `Map` preserves insertion order and has unique keys, so a
`BucketMap` is modelled as an association list `List (Nat × Finset Flashcard)`
(insertion order = list order) together with a `NodupKeys` invariant.
A JavaScript `Set` is modelled as a `Finset` of its elements.
-/

/-- Modelled from the spec: the file `logic/flashcards.ts` (which declares
`Flashcard`, `AnswerDifficulty` and `BucketMap`) is not part of the sources.
Per the spec a flashcard is an immutable value with `front`, `back` and
`hint` text; identity is value-based on front/back/hint, so the optional
tags are omitted from the model. -/
structure Flashcard where
  front : String
  back : String
  hint : String
deriving DecidableEq

/-- Modelled from the spec: `AnswerDifficulty` is a TypeScript enum with the
variants Wrong, Hard, Easy. A TypeScript numeric enum is open at runtime
(any number can be cast into it), which is what lets the update logic's
final `else` branch receive unrecognized values, so the model uses `Nat`
with the three declared constants. -/
abbrev AnswerDifficulty := Nat

/-- Modelled from the spec: the Wrong variant (first enum member, value 0). -/
def AnswerDifficulty.Wrong : AnswerDifficulty := 0

/-- Modelled from the spec: the Hard variant (second enum member, value 1). -/
def AnswerDifficulty.Hard : AnswerDifficulty := 1

/-- Modelled from the spec: the Easy variant (third enum member, value 2). -/
def AnswerDifficulty.Easy : AnswerDifficulty := 2

/-- Modelled from the spec: `BucketMap` maps non-negative integer bucket
numbers to sets of flashcards, as an insertion-ordered association list. -/
abbrev BucketMap := List (Nat × Finset Flashcard)

/-- A JavaScript `Map` cannot hold the same key twice: the bucket keys of
the association list are pairwise distinct. -/
def NodupKeys (m : BucketMap) : Prop := (m.map Prod.fst).Nodup

instance (m : BucketMap) : Decidable (NodupKeys m) := by
  unfold NodupKeys; infer_instance

/-- Caller-maintained invariant from the spec's data model: the card `c`
appears in at most one bucket of the map. -/
def AtMostOneBucket (m : BucketMap) (c : Flashcard) : Prop :=
  m.countP (fun p => decide (c ∈ p.2)) ≤ 1

instance (m : BucketMap) (c : Flashcard) : Decidable (AtMostOneBucket m c) := by
  unfold AtMostOneBucket; infer_instance

/-- The set stored under key `k`, or the empty set when `k` is absent
(the value-level reading of `buckets.get(k)`). -/
def cardsAt (m : BucketMap) (k : Nat) : Finset Flashcard :=
  ((m.find? (fun p => p.1 == k)).map Prod.snd).getD ∅

/-- Whether the map has an entry for key `k` (`buckets.has(k)`). -/
def hasKey (m : BucketMap) (k : Nat) : Bool :=
  m.any (fun p => p.1 == k)

/-- The key of the first bucket (in map iteration order) whose set contains
the card: the `for (const [bucketIndex, cards] of ...entries())` scan with
`break` in `update`, lines 109-115 of algorithm.ts. -/
def findBucket (m : BucketMap) (c : Flashcard) : Option Nat :=
  match m with
  | [] => none
  | (k, s) :: rest => if c ∈ s then some k else findBucket rest c

/-- Value-level effect of the scan in `update` lines 109-115: the card is
deleted from the first bucket (in iteration order) whose set contains it;
later buckets are untouched. -/
def removeCard (m : BucketMap) (c : Flashcard) : BucketMap :=
  match m with
  | [] => []
  | (k, s) :: rest =>
      if c ∈ s then (k, s.erase c) :: rest else (k, s) :: removeCard rest c

/-- Value-level effect of `updatedBuckets.get(newBucket)!.add(card)`
(line 136): the card is inserted into the set of the first entry with key
`k`; other entries are untouched. -/
def addCard (m : BucketMap) (k : Nat) (c : Flashcard) : BucketMap :=
  match m with
  | [] => []
  | (k', s) :: rest =>
      if k' == k then (k', insert c s) :: rest else (k', s) :: addCard rest k c

/-- Embedding of `update` (algorithm.ts lines 100-139), at the level of the
map value it returns. `new Map(buckets)` copies the key/set bindings in
insertion order; the scan removes the card from the first bucket holding it
(defaulting the current bucket to 0 for a new card); the target bucket is 0
for Wrong, min(current+1, 4) for Hard and min(current+2, 4) for anything
else; a missing target entry is appended (`Map.set` of a fresh key appends
in insertion order) and the card is added to the target's set. -/
def update (buckets : BucketMap) (card : Flashcard) (difficulty : AnswerDifficulty) :
    BucketMap :=
  let currentBucket := (findBucket buckets card).getD 0
  let m1 := removeCard buckets card
  let newBucket :=
    if difficulty = AnswerDifficulty.Wrong then 0
    else if difficulty = AnswerDifficulty.Hard then min (currentBucket + 1) 4
    else min (currentBucket + 2) 4
  let m2 := if hasKey m1 newBucket then m1 else m1 ++ [(newBucket, ∅)]
  addCard m2 newBucket card

/-- The largest bucket key of the map, as computed by
`Math.max(...Array.from(buckets.keys()))` on a non-empty map
(algorithm.ts line 23); on an empty map that expression is -Infinity and
the caller crashes, see `toBucketSets`. -/
def maxKey (m : BucketMap) : Nat :=
  m.foldl (fun acc p => max acc p.1) 0

/-- Embedding of `toBucketSets` (algorithm.ts lines 21-33). On an empty map
`Math.max()` yields -Infinity and `new Array(-Infinity + 1)` throws a
RangeError, modelled as `none`. Otherwise an array of maxBucket+1 freshly
allocated empty sets is built and each entry of the map is written at the
index equal to its key. -/
def toBucketSets (buckets : BucketMap) : Option (List (Finset Flashcard)) :=
  if buckets.isEmpty then none
  else
    let maxBucket := maxKey buckets
    let result := List.replicate (maxBucket + 1) (∅ : Finset Flashcard)
    some (buckets.foldl (fun res p => res.set p.1 p.2) result)

/-- Accumulator pass of `getBucketRange` (algorithm.ts lines 50-55): the
`forEach` updates `minBucket` only when still unset and `maxBucket` on
every non-empty bucket; `i` is the index of the head of `l` in the whole
array. -/
def getBucketRangeAux (l : List (Finset Flashcard)) (i : Nat) (mn mx : Option Nat) :
    Option Nat × Option Nat :=
  match l with
  | [] => (mn, mx)
  | s :: rest =>
      if 0 < s.card then
        getBucketRangeAux rest (i + 1) (if mn = none then some i else mn) (some i)
      else
        getBucketRangeAux rest (i + 1) mn mx

/-- Embedding of `getBucketRange` (algorithm.ts lines 44-60): returns the
pair (minBucket, maxBucket) when both were set by the scan, `undefined`
(`none`) otherwise. -/
def getBucketRange (buckets : List (Finset Flashcard)) : Option (Nat × Nat) :=
  match getBucketRangeAux buckets 0 none none with
  | (some mn, some mx) => some (mn, mx)
  | _ => none

/-- Accumulator pass of `practice` (algorithm.ts lines 80-84): the `forEach`
adds every card of bucket `i` to the review set when `day % 2 ** i === 0`;
`i` is the index of the head of `l` in the whole array. -/
def practiceAux (l : List (Finset Flashcard)) (day i : Nat) (acc : Finset Flashcard) :
    Finset Flashcard :=
  match l with
  | [] => acc
  | s :: rest =>
      practiceAux rest day (i + 1) (if day % 2 ^ i = 0 then acc ∪ s else acc)

/-- Embedding of `practice` (algorithm.ts lines 74-88), the spec's
`selectDue`: union of the buckets whose index `i` satisfies
`day % 2 ^ i = 0`, starting from an empty review set. -/
def practice (buckets : List (Finset Flashcard)) (day : Nat) : Finset Flashcard :=
  practiceAux buckets day 0 ∅

/-- Model of JavaScript `String.prototype.trim` as used on lines 152 and
157 of algorithm.ts: removes whitespace from both ends of the string. -/
def jsTrim (s : String) : String :=
  String.mk (((s.data.dropWhile Char.isWhitespace).reverse.dropWhile Char.isWhitespace).reverse)

/-- Embedding of `getHint` (algorithm.ts lines 150-172). String positions
follow the character list of the Lean string, standing in for JavaScript's
code-unit indexing. -/
def getHint (card : Flashcard) : String :=
  if 0 < (jsTrim card.hint).length then card.hint
  else if (jsTrim card.front).length = 0 then "No hint available"
  else if card.front.length ≤ 2 then card.front
  else
    let cs := card.front.data
    String.mk (cs.take 1 ++ List.replicate (cs.length - 2) '*' ++ cs.drop (cs.length - 1))

/-- History entry consumed by `computeProgress`: day, card, difficulty. -/
structure PracticeRecord where
  day : Nat
  card : Flashcard
  difficulty : AnswerDifficulty
deriving DecidableEq

/-- Result record of `computeProgress`. The two JavaScript number-keyed
objects are modelled as partial maps (`Nat → Option Nat`): a key absent
from the object reads as `none`. The two divisions are modelled exactly
over `ℚ`. -/
structure ProgressStats where
  totalCards : Nat
  bucketDistribution : Nat → Option Nat
  averageBucket : ℚ
  practiceHistory : Nat → Option Nat
  accuracyRate : ℚ

/-- Running value of `totalCards` over the bucket scan
(algorithm.ts lines 211-216). -/
def totalCardsOf (buckets : BucketMap) : Nat :=
  buckets.foldl (fun acc p => acc + p.2.card) 0

/-- Running value of `bucketDistribution` over the bucket scan: each entry
writes its set size under its bucket number. -/
def bucketDistributionOf (buckets : BucketMap) : Nat → Option Nat :=
  buckets.foldl (fun f p => fun k => if k = p.1 then some p.2.card else f k)
    (fun _ => none)

/-- Running value of `totalBucketSum` over the bucket scan. -/
def totalBucketSumOf (buckets : BucketMap) : Nat :=
  buckets.foldl (fun acc p => acc + p.1 * p.2.card) 0

/-- Running value of `practiceHistory` over the history scan
(algorithm.ts lines 220-226): `practiceHistory[day] = (practiceHistory[day] || 0) + 1`. -/
def practiceHistoryOf (history : List PracticeRecord) : Nat → Option Nat :=
  history.foldl
    (fun f r => fun k => if k = r.day then some ((f r.day).getD 0 + 1) else f k)
    (fun _ => none)

/-- Running value of `totalAttempts` over the history scan. -/
def totalAttemptsOf (history : List PracticeRecord) : Nat :=
  history.foldl (fun acc _ => acc + 1) 0

/-- Running value of `correctAttempts` over the history scan: entries whose
difficulty is Hard or Easy. -/
def correctAttemptsOf (history : List PracticeRecord) : Nat :=
  history.foldl
    (fun acc r =>
      if r.difficulty = AnswerDifficulty.Hard ∨ r.difficulty = AnswerDifficulty.Easy then
        acc + 1
      else acc)
    0

/-- Embedding of `computeProgress` (algorithm.ts lines 194-237): one scan
over the buckets (totalCards, bucketDistribution, totalBucketSum), one scan
over the history (practiceHistory, totalAttempts, correctAttempts), then
the two guarded divisions. The scans update each variable independently,
so the single JavaScript pass is written as one fold per variable. -/
def computeProgress (buckets : BucketMap) (history : List PracticeRecord) :
    ProgressStats :=
  let totalCards := totalCardsOf buckets
  let averageBucket : ℚ :=
    if 0 < totalCards then (totalBucketSumOf buckets : ℚ) / (totalCards : ℚ) else 0
  let totalAttempts := totalAttemptsOf history
  let accuracyRate : ℚ :=
    if 0 < totalAttempts then
      (correctAttemptsOf history : ℚ) / (totalAttempts : ℚ) * 100
    else 0
  { totalCards := totalCards
    bucketDistribution := bucketDistributionOf buckets
    averageBucket := averageBucket
    practiceHistory := practiceHistoryOf history
    accuracyRate := accuracyRate }

/-!
Heap-level model of `update`, used for the frame/aliasing claim. JavaScript
sets are mutable objects: a `SetRef` is an object identity and a `Heap`
gives each identity its current contents. `new Map(buckets)` copies only
the (bucket number, set reference) bindings — the set objects themselves
are shared with the caller.
-/

/-- Object identity of a JavaScript `Set`. -/
abbrev SetRef := Nat

/-- The mutable store: contents of each set object. -/
abbrev Heap := SetRef → Finset Flashcard

/-- Heap-level embedding of `update` (algorithm.ts lines 100-139) on a map
object given as (bucket number, set reference) bindings. `fresh` is an
unused object identity for the `new Set()` of line 134. Returns the heap
after the call, the bindings of the returned map, and the next unused
identity. The caller's map object keeps its own bindings untouched, but
the heap cells those bindings point to may be written: line 112 deletes
the card from the found set object and line 136 adds it to the target set
object. -/
def updateObj (h : Heap) (buckets : List (Nat × SetRef)) (fresh : SetRef)
    (card : Flashcard) (difficulty : AnswerDifficulty) :
    Heap × List (Nat × SetRef) × SetRef :=
  let found := buckets.find? (fun p => card ∈ h p.2)
  let currentBucket := (found.map Prod.fst).getD 0
  let h1 : Heap :=
    match found with
    | none => h
    | some p => fun r => if r = p.2 then (h p.2).erase card else h r
  let newBucket :=
    if difficulty = AnswerDifficulty.Wrong then 0
    else if difficulty = AnswerDifficulty.Hard then min (currentBucket + 1) 4
    else min (currentBucket + 2) 4
  let st :=
    if buckets.any (fun p => p.1 == newBucket) then (h1, buckets, fresh)
    else
      (fun r => if r = fresh then (∅ : Finset Flashcard) else h1 r,
        buckets ++ [(newBucket, fresh)], fresh + 1)
  let targetRef := ((st.2.1.find? (fun p => p.1 == newBucket)).map Prod.snd).getD 0
  (fun r => if r = targetRef then insert card (st.1 r) else st.1 r, st.2.1, st.2.2)

/-!
Shared flashcards and heaps used by concrete witnesses and counterexamples.
-/

/-- A concrete flashcard used on concrete inputs. -/
def cardA : Flashcard := ⟨"a", "b", ""⟩

/-- A second concrete flashcard. -/
def cardB : Flashcard := ⟨"c", "d", ""⟩

/-- A concrete heap on which the caller's map `[(0, 0)]` points its bucket 0
at set object 0, which holds exactly `cardA`. -/
def heap0 : Heap := fun r => if r = 0 then {cardA} else ∅

/-- A third concrete flashcard. -/
def cardC : Flashcard := ⟨"e", "f", ""⟩

/-- Total number of cards summed across all buckets of a map. -/
def totalCount (m : BucketMap) : Nat := (m.map (fun p => p.2.card)).sum

/-!
Generic helper lemmas.
-/

/-- A string has positive length exactly when it is not the empty string. -/
theorem string_length_pos_iff (s : String) : 0 < s.length ↔ s ≠ "" := by
  cases s with
  | mk l =>
    cases l with
    | nil => simp
    | cons a t =>
      simp only [String.length_mk, List.length_cons]
      constructor
      · intro _ h
        simp [String.ext_iff] at h
      · intro _
        omega

/-- Dropping all but the final element of a non-empty list leaves exactly
its last element. -/
theorem drop_length_sub_one_eq : ∀ (l : List Char), ∀ h : l ≠ [],
    l.drop (l.length - 1) = [l.getLast h]
  | [a], _ => rfl
  | a :: b :: t, _ => by
    have ih := drop_length_sub_one_eq (b :: t) (by simp)
    have hlen : (a :: b :: t).length - 1 = (b :: t).length := by
      simp
    rw [hlen]
    have : (a :: b :: t).drop (b :: t).length = (b :: t).drop ((b :: t).length - 1) := by
      simp [List.drop]
    rw [this, ih]
    simp [List.getLast]

/-- Taking one element of a non-empty list yields exactly its head. -/
theorem take_one_eq_head : ∀ (l : List Char), ∀ h : l ≠ [], l.take 1 = [l.head h]
  | _ :: _, _ => rfl

/-- C7: `getHint` returns the hint verbatim when the hint is non-empty after
trimming; otherwise the literal "No hint available" when the front is empty
after trimming; otherwise a front of length at most 2 unchanged; otherwise
the front's first character, length-2 asterisk characters, and the front's
last character. -/
theorem getHint_spec (card : Flashcard) :
    (jsTrim card.hint ≠ "" → getHint card = card.hint) ∧
    (jsTrim card.hint = "" → jsTrim card.front = "" → getHint card = "No hint available") ∧
    (jsTrim card.hint = "" → jsTrim card.front ≠ "" → card.front.length ≤ 2 →
      getHint card = card.front) ∧
    (jsTrim card.hint = "" → jsTrim card.front ≠ "" → 2 < card.front.length →
      ∀ h : card.front.data ≠ [],
        (getHint card).data =
          card.front.data.head h ::
            (List.replicate (card.front.length - 2) '*' ++ [card.front.data.getLast h])) := by
  refine ⟨?_, ?_, ?_, ?_⟩
  · intro h1
    rw [getHint, if_pos ((string_length_pos_iff _).2 h1)]
  · intro h1 h2
    have hh : ¬ 0 < (jsTrim card.hint).length := by
      rw [h1]; simp
    have hf : (jsTrim card.front).length = 0 := by
      rw [h2]; simp
    rw [getHint, if_neg hh, if_pos hf]
  · intro h1 h2 h3
    have hh : ¬ 0 < (jsTrim card.hint).length := by
      rw [h1]; simp
    have hf : ¬ (jsTrim card.front).length = 0 := by
      have := (string_length_pos_iff _).2 h2; omega
    rw [getHint, if_neg hh, if_neg hf, if_pos h3]
  · intro h1 h2 h3 hne
    have hh : ¬ 0 < (jsTrim card.hint).length := by
      rw [h1]; simp
    have hf : ¬ (jsTrim card.front).length = 0 := by
      have := (string_length_pos_iff _).2 h2; omega
    have h3' : ¬ card.front.length ≤ 2 := by omega
    rw [getHint, if_neg hh, if_neg hf, if_neg h3']
    have hlen : card.front.length = card.front.data.length := rfl
    show card.front.data.take 1 ++
        List.replicate (card.front.data.length - 2) '*' ++
        card.front.data.drop (card.front.data.length - 1) =
      card.front.data.head hne ::
        (List.replicate (card.front.length - 2) '*' ++ [card.front.data.getLast hne])
    rw [take_one_eq_head card.front.data hne,
      drop_length_sub_one_eq card.front.data hne, hlen]
    simp

/-- Witness for C7 at the spec's own example: front "Algorithm" with an
empty hint masks to "A*******m". -/
theorem getHint_spec_witness :
    (getHint ⟨"Algorithm", "x", ""⟩).data =
      ("Algorithm" : String).data.head (by decide) ::
        (List.replicate (("Algorithm" : String).length - 2) '*' ++
          [("Algorithm" : String).data.getLast (by decide)]) :=
  (getHint_spec ⟨"Algorithm", "x", ""⟩).2.2.2 (by decide) (by decide) (by decide) (by decide)

/-- C8 counterexample: on the empty bucket map `toBucketSets` does not
return the empty sequence. -/
theorem toBucketSets_empty_not_empty_seq : ¬ toBucketSets [] = some [] := by
  decide

/-- C8 amended: `toBucketSets` applied to the empty bucket map fails —
`Math.max()` over zero keys is -Infinity and the array allocation throws,
modelled as `none` — rather than returning an empty sequence. -/
theorem toBucketSets_empty_fails : toBucketSets [] = none := rfl

/-- C9 counterexample: the unrecognized difficulty value 3 is not rejected:
`update` returns the normal Easy result (a new card lands in bucket
min(0+2, 4) = 2) instead of failing with InvalidDifficulty. -/
theorem update_unrecognized_not_rejected :
    update [] cardA 3 = [(2, {cardA})] ∧
    update [] cardA 3 = update [] cardA AnswerDifficulty.Easy := by
  constructor <;> decide

/-- C9 amended: any difficulty value other than Wrong and Hard — including
every unrecognized value — falls through to the final `else` branch, so
`update` behaves exactly as for Easy and never fails. -/
theorem update_fallthrough_as_easy (m : BucketMap) (c : Flashcard)
    (d : AnswerDifficulty) (hw : d ≠ AnswerDifficulty.Wrong)
    (hh : d ≠ AnswerDifficulty.Hard) :
    update m c d = update m c AnswerDifficulty.Easy := by
  have hE1 : ¬ (AnswerDifficulty.Easy = AnswerDifficulty.Wrong) := by decide
  have hE2 : ¬ (AnswerDifficulty.Easy = AnswerDifficulty.Hard) := by decide
  simp only [update, if_neg hw, if_neg hh, if_neg hE1, if_neg hE2]

/-- Witness for the C9 amended theorem at the concrete difficulty value 7. -/
theorem update_fallthrough_as_easy_witness :
    update [(0, {cardA})] cardA 7 = update [(0, {cardA})] cardA AnswerDifficulty.Easy :=
  update_fallthrough_as_easy [(0, {cardA})] cardA 7 (by decide) (by decide)

/-- C4: heap-level evaluation at the failing input. The caller's map binds
bucket 0 to set object 0, holding exactly `cardA`. After
`update(buckets, cardA, Easy)` the caller's set object 0 has been emptied:
line 112 of algorithm.ts deletes the card from the set object shared
between the caller's map and the shallow copy, observably mutating the
caller's input. -/
theorem update_mutates_callers_sets :
    heap0 0 = {cardA} ∧
    (updateObj heap0 [(0, 0)] 1 cardA AnswerDifficulty.Easy).1 0 = ∅ := by
  constructor <;> decide

/-- C5 counterexample: updating with a card found in no bucket (a new card)
raises the total card count from 0 to 1, so the total is not conserved for
every map, card and difficulty. -/
theorem update_total_not_conserved_for_new_card :
    totalCount (update [] cardA AnswerDifficulty.Easy) ≠ totalCount [] := by
  decide

/-- Membership in the practice accumulator: a card is collected exactly when
it was already in the accumulator or lies in a due bucket of the remaining
suffix (whose head has index `i` in the whole array). -/
theorem mem_practiceAux (c : Flashcard) :
    ∀ (l : List (Finset Flashcard)) (day i : Nat) (acc : Finset Flashcard),
      c ∈ practiceAux l day i acc ↔
        c ∈ acc ∨ ∃ j, ∃ hj : j < l.length, day % 2 ^ (i + j) = 0 ∧ c ∈ l.get ⟨j, hj⟩
  | [], day, i, acc => by simp [practiceAux]
  | s :: rest, day, i, acc => by
    rw [practiceAux, mem_practiceAux c rest day (i + 1)]
    constructor
    · rintro (hacc | ⟨j, hj, hdue, hmem⟩)
      · by_cases hd : day % 2 ^ i = 0
        · rw [if_pos hd] at hacc
          rcases Finset.mem_union.1 hacc with h | h
          · exact Or.inl h
          · exact Or.inr ⟨0, by simp, by simpa using hd, h⟩
        · rw [if_neg hd] at hacc
          exact Or.inl hacc
      · refine Or.inr ⟨j + 1, by simpa using hj, ?_, by simpa using hmem⟩
        have harith : i + (j + 1) = i + 1 + j := by omega
        rw [harith]
        exact hdue
    · rintro (hacc | ⟨j, hj, hdue, hmem⟩)
      · by_cases hd : day % 2 ^ i = 0
        · exact Or.inl (by rw [if_pos hd]; exact Finset.mem_union_left _ hacc)
        · exact Or.inl (by rw [if_neg hd]; exact hacc)
      · match j, hj with
        | 0, hj =>
          refine Or.inl ?_
          have hd : day % 2 ^ i = 0 := by simpa using hdue
          rw [if_pos hd]
          exact Finset.mem_union_right _ (by simpa using hmem)
        | j + 1, hj =>
          refine Or.inr ⟨j, by simpa using hj, ?_, by simpa using hmem⟩
          have harith : i + 1 + j = i + (j + 1) := by omega
          rw [harith]
          exact hdue

/-- C2: `practice` (the spec's `selectDue`) returns exactly the union of the
buckets whose index i satisfies day mod 2^i = 0; in particular bucket 0's
cards are always included and no card of a non-due bucket is returned. -/
theorem practice_selects_exactly_due (b : List (Finset Flashcard)) (day : Nat)
    (hone : ∀ (c : Flashcard) (i j : Nat) (hi : i < b.length) (hj : j < b.length),
      c ∈ b.get ⟨i, hi⟩ → c ∈ b.get ⟨j, hj⟩ → i = j) :
    (∀ c : Flashcard, c ∈ practice b day ↔
      ∃ i, ∃ hi : i < b.length, day % 2 ^ i = 0 ∧ c ∈ b.get ⟨i, hi⟩) ∧
    (∀ hz : 0 < b.length, ∀ c ∈ b.get ⟨0, hz⟩, c ∈ practice b day) ∧
    (∀ i, ∀ hi : i < b.length, day % 2 ^ i ≠ 0 →
      ∀ c ∈ b.get ⟨i, hi⟩, c ∉ practice b day) := by
  have hmem : ∀ c : Flashcard, c ∈ practice b day ↔
      ∃ i, ∃ hi : i < b.length, day % 2 ^ i = 0 ∧ c ∈ b.get ⟨i, hi⟩ := by
    intro c
    rw [practice, mem_practiceAux]
    simp
  refine ⟨hmem, ?_, ?_⟩
  · intro hz c hc
    exact (hmem c).2 ⟨0, hz, by simp [Nat.mod_one], hc⟩
  · intro i hi hdue c hc hmemp
    rcases (hmem c).1 hmemp with ⟨j, hj, hjdue, hcj⟩
    have hij := hone c i j hi hj hc hcj
    subst hij
    exact hdue hjdue

/-- Witness for C2: with the single bucket 0 holding `cardA`, bucket 0's
card is selected on day 3. -/
theorem practice_selects_exactly_due_witness :
    cardA ∈ practice [{cardA}] 3 :=
  (practice_selects_exactly_due [{cardA}] 3
    (fun _ i j hi hj _ _ => by
      simp only [List.length_singleton] at hi hj
      omega)).2.1 (by decide) cardA (by decide)

/-- Invariant of the `getBucketRange` scan, stated against the ambient
indexed sets `g`: whenever the scan ends with both bounds set, the bounds
are ordered, lie below the scanned length, and both index non-empty sets. -/
theorem getBucketRangeAux_spec (g : Nat → Finset Flashcard) (l : List (Finset Flashcard)) :
    ∀ (i : Nat) (mn mx : Option Nat),
      (∀ j, ∀ hj : j < l.length, l.get ⟨j, hj⟩ = g (i + j)) →
      mn.isSome = mx.isSome →
      (∀ a b, mn = some a → mx = some b →
        a ≤ b ∧ b < i ∧ 0 < (g a).card ∧ 0 < (g b).card) →
      ∀ a b, getBucketRangeAux l i mn mx = (some a, some b) →
        a ≤ b ∧ b < i + l.length ∧ 0 < (g a).card ∧ 0 < (g b).card := by
  induction l with
  | nil =>
    intro i mn mx hg hsome hinv a b heq
    rw [getBucketRangeAux] at heq
    obtain ⟨ha, hb, hga, hgb⟩ :=
      hinv a b (congrArg Prod.fst heq) (congrArg Prod.snd heq)
    exact ⟨ha, by simp only [List.length_nil]; omega, hga, hgb⟩
  | cons s rest ih =>
    intro i mn mx hg hsome hinv a b heq
    rw [getBucketRangeAux] at heq
    have hgi : g i = s := by
      have h0 := hg 0 (by simp)
      simpa using h0.symm
    have hgrest : ∀ j, ∀ hj : j < rest.length, rest.get ⟨j, hj⟩ = g (i + 1 + j) := by
      intro j hj
      have hsucc := hg (j + 1) (by simpa using hj)
      have harith : i + (j + 1) = i + 1 + j := by omega
      rw [harith] at hsucc
      simpa using hsucc
    by_cases hs : 0 < s.card
    · rw [if_pos hs] at heq
      have hrec := ih (i + 1) (if mn = none then some i else mn) (some i)
        hgrest
        (by cases mn <;> simp)
        (by
          intro a0 b0 hmn hmx
          have hb0 : i = b0 := Option.some.inj hmx
          subst hb0
          cases hm : mn with
          | none =>
            rw [hm, if_pos rfl] at hmn
            have ha0 : i = a0 := Option.some.inj hmn
            subst ha0
            exact ⟨Nat.le_refl _, Nat.lt_succ_self _, by rw [hgi]; exact hs,
              by rw [hgi]; exact hs⟩
          | some a1 =>
            rw [hm, if_neg (by simp)] at hmn
            have ha1 : a1 = a0 := Option.some.inj hmn
            subst ha1
            have hmxold : ∃ b1, mx = some b1 := by
              rw [hm] at hsome
              cases mx with
              | none => simp at hsome
              | some b1 => exact ⟨b1, rfl⟩
            obtain ⟨b1, hb1⟩ := hmxold
            obtain ⟨hab, hbi, hga1, _⟩ := hinv a1 b1 hm hb1
            exact ⟨by omega, Nat.lt_succ_self _, hga1, by rw [hgi]; exact hs⟩)
        a b heq
      obtain ⟨hab, hblt, hga, hgb⟩ := hrec
      exact ⟨hab, by simp only [List.length_cons]; omega, hga, hgb⟩
    · rw [if_neg hs] at heq
      have hrec := ih (i + 1) mn mx hgrest hsome
        (by
          intro a0 b0 hmn hmx
          obtain ⟨hab, hbi, hga0, hgb0⟩ := hinv a0 b0 hmn hmx
          exact ⟨hab, by omega, hga0, hgb0⟩)
        a b heq
      obtain ⟨hab, hblt, hga, hgb⟩ := hrec
      exact ⟨hab, by simp only [List.length_cons]; omega, hga, hgb⟩

/-- C10: whenever `getBucketRange` returns a pair rather than undefined,
minBucket ≤ maxBucket, both are valid indices into the dense array, and the
sets at both indices are non-empty. -/
theorem getBucketRange_spec (b : List (Finset Flashcard)) (mn mx : Nat)
    (h : getBucketRange b = some (mn, mx)) :
    mn ≤ mx ∧ mn < b.length ∧ mx < b.length ∧
      0 < (b.getD mn ∅).card ∧ 0 < (b.getD mx ∅).card := by
  have hpair : getBucketRangeAux b 0 none none = (some mn, some mx) := by
    rw [getBucketRange] at h
    rcases haux : getBucketRangeAux b 0 none none with ⟨fst, snd⟩
    rw [haux] at h
    cases fst with
    | none => simp at h
    | some a =>
      cases snd with
      | none => simp at h
      | some c =>
        have hac : (a, c) = (mn, mx) := Option.some.inj h
        injection hac with h1 h2
        rw [h1, h2]
  have hspec := getBucketRangeAux_spec (fun k => b.getD k ∅) b 0 none none
    (by
      intro j hj
      show b.get ⟨j, hj⟩ = b.getD (0 + j) ∅
      rw [Nat.zero_add, List.getD_eq_getElem b ∅ hj]
      exact List.get_eq_getElem b ⟨j, hj⟩)
    rfl
    (by intro a0 b0 hmn _; simp at hmn)
    mn mx hpair
  obtain ⟨hab, hblt, hga, hgb⟩ := hspec
  simp only [Nat.zero_add] at hblt
  exact ⟨hab, by omega, hblt, hga, hgb⟩

/-- Witness for C10 on the dense array [∅, {cardA}]: the range is (1, 1),
inside bounds with a non-empty bucket at both ends. -/
theorem getBucketRange_spec_witness :
    (1 : Nat) ≤ 1 ∧ 1 < ([∅, {cardA}] : List (Finset Flashcard)).length ∧
      1 < ([∅, {cardA}] : List (Finset Flashcard)).length ∧
      0 < (([∅, {cardA}] : List (Finset Flashcard)).getD 1 ∅).card ∧
      0 < (([∅, {cardA}] : List (Finset Flashcard)).getD 1 ∅).card :=
  getBucketRange_spec [∅, {cardA}] 1 1 (by decide)

/-- Reading a cons cell: the head's set when the head's key matches,
otherwise the tail's reading. -/
theorem cardsAt_cons (k0 : Nat) (s : Finset Flashcard) (rest : BucketMap) (k : Nat) :
    cardsAt ((k0, s) :: rest) k = if k0 = k then s else cardsAt rest k := by
  by_cases h : k0 = k
  · rw [if_pos h]
    unfold cardsAt
    rw [List.find?_cons_of_pos _ (by simp [h])]
    rfl
  · rw [if_neg h]
    unfold cardsAt
    rw [List.find?_cons_of_neg _ (by simp [h])]

/-- A key the map does not have reads as the empty set. -/
theorem cardsAt_eq_empty_of_not_hasKey (m : BucketMap) (k : Nat)
    (h : hasKey m k = false) : cardsAt m k = ∅ := by
  induction m with
  | nil => rfl
  | cons p rest ih =>
    simp only [hasKey, List.any_cons, Bool.or_eq_false_iff] at h
    rw [show p = (p.1, p.2) from rfl, cardsAt_cons,
      if_neg (by simpa using h.1)]
    exact ih h.2

/-- A card read from the map comes from an actual entry of the map. -/
theorem exists_of_mem_cardsAt (m : BucketMap) (k : Nat) (c : Flashcard)
    (hc : c ∈ cardsAt m k) : ∃ s, (k, s) ∈ m ∧ c ∈ s := by
  unfold cardsAt at hc
  cases hf : m.find? (fun p => p.1 == k) with
  | none => rw [hf] at hc; simp at hc
  | some q =>
    rw [hf] at hc
    refine ⟨q.2, ?_, hc⟩
    have hk : q.1 = k := by simpa using List.find?_some hf
    rw [← hk]
    exact List.mem_of_find?_eq_some hf

/-- When the card lies in no entry of the map, no key reads it. -/
theorem not_mem_cardsAt_of_all (m : BucketMap) (k : Nat) (c : Flashcard)
    (h : ∀ q ∈ m, c ∉ q.2) : c ∉ cardsAt m k := by
  intro hc
  obtain ⟨s, hs, hcs⟩ := exists_of_mem_cardsAt m k c hc
  exact h (k, s) hs hcs

/-- The at-most-one-bucket invariant at a cons cell: when the head holds the
card, no tail entry does; and the tail keeps the invariant. -/
theorem atMostOne_cons (k0 : Nat) (s : Finset Flashcard) (rest : BucketMap)
    (c : Flashcard) (h : AtMostOneBucket ((k0, s) :: rest) c) :
    (c ∈ s → ∀ q ∈ rest, c ∉ q.2) ∧ AtMostOneBucket rest c := by
  unfold AtMostOneBucket at h ⊢
  rw [List.countP_cons] at h
  constructor
  · intro hcs q hq hcq
    have hz : rest.countP (fun p => decide (c ∈ p.2)) = 0 := by
      rw [if_pos (decide_eq_true hcs)] at h
      omega
    have := (List.countP_eq_zero).1 hz q hq
    simp at this
    exact this hcq
  · omega

/-- The scan's deletion, entry-by-entry: under the at-most-one invariant,
reading any key of `removeCard m c` is reading the original key with the
card erased. -/
theorem cardsAt_removeCard (m : BucketMap) (c : Flashcard)
    (hone : AtMostOneBucket m c) (k : Nat) :
    cardsAt (removeCard m c) k = (cardsAt m k).erase c := by
  induction m with
  | nil =>
    show cardsAt [] k = (cardsAt [] k).erase c
    show (∅ : Finset Flashcard) = Finset.erase ∅ c
    rw [Finset.erase_empty]
  | cons p rest ih =>
    obtain ⟨htail, hrest⟩ := atMostOne_cons p.1 p.2 rest c (by
      rw [show (p.1, p.2) = p from rfl]; exact hone)
    rw [show p = (p.1, p.2) from rfl, removeCard]
    by_cases hc : c ∈ p.2
    · rw [if_pos hc, cardsAt_cons, cardsAt_cons]
      by_cases hk : p.1 = k
      · rw [if_pos hk, if_pos hk]
      · rw [if_neg hk, if_neg hk]
        have hnot : c ∉ cardsAt rest k :=
          not_mem_cardsAt_of_all rest k c (htail hc)
        rw [Finset.erase_eq_of_not_mem hnot]
    · rw [if_neg hc, cardsAt_cons, cardsAt_cons]
      by_cases hk : p.1 = k
      · rw [if_pos hk, if_pos hk, Finset.erase_eq_of_not_mem hc]
      · rw [if_neg hk, if_neg hk]
        exact ih hrest

/-- Appending a fresh empty bucket changes no reading. -/
theorem cardsAt_append_empty (m : BucketMap) (t k : Nat) :
    cardsAt (m ++ [(t, ∅)]) k = cardsAt m k := by
  induction m with
  | nil =>
    show cardsAt [(t, ∅)] k = cardsAt [] k
    rw [cardsAt_cons]
    by_cases hk : t = k
    · rw [if_pos hk]; rfl
    · rw [if_neg hk]
  | cons p rest ih =>
    rw [show p = (p.1, p.2) from rfl, List.cons_append, cardsAt_cons, cardsAt_cons]
    by_cases hk : p.1 = k
    · rw [if_pos hk, if_pos hk]
    · rw [if_neg hk, if_neg hk]
      exact ih

/-- Adding the card to an existing key `t`: key `t` reads with the card
inserted, every other key is untouched. -/
theorem cardsAt_addCard (m : BucketMap) (t : Nat) (c : Flashcard) (k : Nat)
    (ht : hasKey m t = true) :
    cardsAt (addCard m t c) k =
      if t = k then insert c (cardsAt m k) else cardsAt m k := by
  induction m with
  | nil => simp [hasKey] at ht
  | cons p rest ih =>
    rw [show p = (p.1, p.2) from rfl, addCard]
    by_cases hpt : p.1 = t
    · rw [if_pos (by simpa using hpt), cardsAt_cons, cardsAt_cons]
      by_cases hk : p.1 = k
      · rw [if_pos hk, if_pos hk, if_pos (hpt ▸ hk)]
      · rw [if_neg hk, if_neg hk, if_neg (fun h => hk (hpt ▸ h))]
    · rw [if_neg (by simpa using hpt), cardsAt_cons, cardsAt_cons]
      have ht2 : hasKey rest t = true := by
        simp only [hasKey, List.any_cons, Bool.or_eq_true] at ht
        rcases ht with h | h
        · exact absurd (by simpa using h) hpt
        · exact h
      by_cases hk : p.1 = k
      · rw [if_pos hk, if_pos hk, if_neg (fun h => hpt (by rw [hk, h]))]
      · rw [if_neg hk, if_neg hk]
        exact ih ht2

/-- Having a key is membership of the key list. -/
theorem hasKey_eq_true_iff (m : BucketMap) (k : Nat) :
    hasKey m k = true ↔ k ∈ m.map Prod.fst := by
  unfold hasKey
  rw [List.any_eq_true]
  constructor
  · rintro ⟨p, hp, hpk⟩
    exact List.mem_map.2 ⟨p, hp, by simpa using hpk⟩
  · intro hk
    obtain ⟨p, hp, hpk⟩ := List.mem_map.1 hk
    exact ⟨p, hp, by simpa using hpk⟩

/-- The deletion scan leaves the key list unchanged. -/
theorem keys_removeCard (m : BucketMap) (c : Flashcard) :
    (removeCard m c).map Prod.fst = m.map Prod.fst := by
  induction m with
  | nil => rfl
  | cons p rest ih =>
    rw [show p = (p.1, p.2) from rfl, removeCard]
    by_cases hc : c ∈ p.2
    · rw [if_pos hc]
      simp only [List.map_cons]
    · rw [if_neg hc]
      simp only [List.map_cons, ih]

/-- Adding a card to an existing bucket leaves the key list unchanged. -/
theorem keys_addCard (m : BucketMap) (t : Nat) (c : Flashcard) :
    (addCard m t c).map Prod.fst = m.map Prod.fst := by
  induction m with
  | nil => rfl
  | cons p rest ih =>
    rw [show p = (p.1, p.2) from rfl, addCard]
    by_cases hpt : p.1 = t
    · rw [if_pos (by simpa using hpt)]
      simp only [List.map_cons]
    · rw [if_neg (by simpa using hpt)]
      simp only [List.map_cons, ih]

/-- The map returned by `update` still has pairwise distinct keys. -/
theorem nodupKeys_update (m : BucketMap) (c : Flashcard) (d : AnswerDifficulty)
    (hnk : NodupKeys m) : NodupKeys (update m c d) := by
  unfold NodupKeys at hnk ⊢
  simp only [update]
  rw [keys_addCard]
  by_cases hh : hasKey (removeCard m c)
      (if d = AnswerDifficulty.Wrong then 0
        else if d = AnswerDifficulty.Hard then min ((findBucket m c).getD 0 + 1) 4
        else min ((findBucket m c).getD 0 + 2) 4)
  · rw [if_pos hh, keys_removeCard]
    exact hnk
  · rw [if_neg hh, List.map_append, keys_removeCard]
    have hnot : (if d = AnswerDifficulty.Wrong then 0
        else if d = AnswerDifficulty.Hard then min ((findBucket m c).getD 0 + 1) 4
        else min ((findBucket m c).getD 0 + 2) 4) ∉ m.map Prod.fst := by
      intro hmem
      have := (hasKey_eq_true_iff (removeCard m c) _).2
        (by rw [keys_removeCard]; exact hmem)
      simp [this] at hh
    simp only [List.map_cons, List.map_nil]
    exact List.Nodup.append hnk (List.nodup_singleton _)
      (by
        intro a ha hb
        simp only [List.mem_singleton] at hb
        exact hnot (hb ▸ ha))

/-- When exactly the key `k` reads the card, the bucket scan finds `k`. -/
theorem findBucket_eq_of (m : BucketMap) (c : Flashcard) (k : Nat)
    (hnk : NodupKeys m) (hmem : c ∈ cardsAt m k)
    (huniq : ∀ j, c ∈ cardsAt m j → j = k) :
    findBucket m c = some k := by
  induction m with
  | nil =>
    exact absurd hmem (by
      intro h
      exact absurd h (by simp [cardsAt]))
  | cons p rest ih =>
    rw [show p = (p.1, p.2) from rfl, findBucket]
    by_cases hc : c ∈ p.2
    · rw [if_pos hc]
      have : p.1 = k := huniq p.1 (by
        rw [show p = (p.1, p.2) from rfl, cardsAt_cons, if_pos rfl]; exact hc)
      rw [this]
    · rw [if_neg hc]
      have hknk : NodupKeys rest := by
        unfold NodupKeys at hnk ⊢
        rw [show p = (p.1, p.2) from rfl] at hnk
        simp only [List.map_cons, List.nodup_cons] at hnk
        exact hnk.2
      have hhead : p.1 ∉ rest.map Prod.fst := by
        unfold NodupKeys at hnk
        rw [show p = (p.1, p.2) from rfl] at hnk
        simp only [List.map_cons, List.nodup_cons] at hnk
        exact hnk.1
      have hkne : p.1 ≠ k := by
        intro hpk
        rw [show p = (p.1, p.2) from rfl, cardsAt_cons, if_pos hpk] at hmem
        exact hc hmem
      have hmem2 : c ∈ cardsAt rest k := by
        rw [show p = (p.1, p.2) from rfl, cardsAt_cons, if_neg hkne] at hmem
        exact hmem
      refine ih hknk hmem2 ?_
      intro j hj
      by_cases hjp : p.1 = j
      · exfalso
        obtain ⟨s, hs, _⟩ := exists_of_mem_cardsAt rest j c hj
        exact hhead (hjp ▸ List.mem_map_of_mem Prod.fst hs)
      · exact huniq j (by
          rw [show p = (p.1, p.2) from rfl, cardsAt_cons, if_neg hjp]; exact hj)

/-- Entry-wise effect of the tail of `update` (lines 133-136 of
algorithm.ts) for an arbitrary target bucket `t`: after ensuring the target
entry exists and adding the card, key `t` reads the erased original set with
the card inserted, and every other key reads its erased original set. -/
theorem cardsAt_step (m : BucketMap) (c : Flashcard) (t k : Nat)
    (hone : AtMostOneBucket m c) :
    cardsAt (addCard (if hasKey (removeCard m c) t then removeCard m c
      else removeCard m c ++ [(t, ∅)]) t c) k =
      if t = k then insert c ((cardsAt m k).erase c) else (cardsAt m k).erase c := by
  by_cases hh : hasKey (removeCard m c) t
  · rw [if_pos hh, cardsAt_addCard _ _ _ _ hh,
      cardsAt_removeCard m c hone k]
  · rw [if_neg hh]
    have hh2 : hasKey (removeCard m c ++ [(t, ∅)]) t = true := by
      simp [hasKey]
    rw [cardsAt_addCard _ _ _ _ hh2, cardsAt_append_empty,
      cardsAt_removeCard m c hone k]

/-- Entry-wise characterization of `update`: the target bucket gains the
card, every bucket loses it, and nothing else changes. -/
theorem cardsAt_update (m : BucketMap) (c : Flashcard) (d : AnswerDifficulty)
    (hone : AtMostOneBucket m c) (k : Nat) :
    cardsAt (update m c d) k =
      if (if d = AnswerDifficulty.Wrong then 0
          else if d = AnswerDifficulty.Hard then min ((findBucket m c).getD 0 + 1) 4
          else min ((findBucket m c).getD 0 + 2) 4) = k
      then insert c ((cardsAt m k).erase c)
      else (cardsAt m k).erase c := by
  simp only [update]
  exact cardsAt_step m c _ k hone

/-- C1: `update` places the card in bucket 0 for Wrong,
min(currentBucket+1, 4) for Hard and min(currentBucket+2, 4) for Easy,
where currentBucket is the bucket holding the card in the input map (0 for
a card found nowhere); the resulting bucket never exceeds 4. -/
theorem update_places_card (m : BucketMap) (c : Flashcard) (d : AnswerDifficulty)
    (hnk : NodupKeys m) (hone : AtMostOneBucket m c)
    (hd : d = AnswerDifficulty.Wrong ∨ d = AnswerDifficulty.Hard ∨
      d = AnswerDifficulty.Easy) :
    findBucket (update m c d) c =
      some (if d = AnswerDifficulty.Wrong then 0
        else if d = AnswerDifficulty.Hard then min ((findBucket m c).getD 0 + 1) 4
        else min ((findBucket m c).getD 0 + 2) 4) ∧
    (∀ k, findBucket (update m c d) c = some k → k ≤ 4) := by
  have hfind : findBucket (update m c d) c =
      some (if d = AnswerDifficulty.Wrong then 0
        else if d = AnswerDifficulty.Hard then min ((findBucket m c).getD 0 + 1) 4
        else min ((findBucket m c).getD 0 + 2) 4) := by
    refine findBucket_eq_of (update m c d) c _ (nodupKeys_update m c d hnk) ?_ ?_
    · rw [cardsAt_update m c d hone, if_pos rfl]
      exact Finset.mem_insert_self c _
    · intro j hj
      rw [cardsAt_update m c d hone] at hj
      by_cases ht : (if d = AnswerDifficulty.Wrong then 0
          else if d = AnswerDifficulty.Hard then min ((findBucket m c).getD 0 + 1) 4
          else min ((findBucket m c).getD 0 + 2) 4) = j
      · exact ht.symm
      · rw [if_neg ht] at hj
        exact absurd hj (Finset.not_mem_erase c _)
  refine ⟨hfind, ?_⟩
  intro k hk
  rw [hfind] at hk
  have hk2 := Option.some.inj hk
  rw [← hk2]
  rcases hd with h | h | h <;> subst h <;>
    simp [AnswerDifficulty.Wrong, AnswerDifficulty.Hard, AnswerDifficulty.Easy]

/-- Witness for C1: a card sitting in bucket 0 answered Easy moves to
bucket min(0+2, 4) = 2. -/
theorem update_places_card_witness :
    findBucket (update [(0, {cardA})] cardA AnswerDifficulty.Easy) cardA = some 2 :=
  (update_places_card [(0, {cardA})] cardA AnswerDifficulty.Easy
    (by decide) (by decide) (by decide)).1

/-- Total count at a cons cell. -/
theorem totalCount_cons (p : Nat × Finset Flashcard) (rest : BucketMap) :
    totalCount (p :: rest) = p.2.card + totalCount rest := by
  simp [totalCount]

/-- Appending a fresh empty bucket does not change the total count. -/
theorem totalCount_append_empty (m : BucketMap) (t : Nat) :
    totalCount (m ++ [(t, ∅)]) = totalCount m := by
  simp [totalCount]

/-- Adding a card that is nowhere in the map to an existing bucket raises
the total count by exactly one. -/
theorem totalCount_addCard (m : BucketMap) (t : Nat) (c : Flashcard)
    (ht : hasKey m t = true) (hc : c ∉ cardsAt m t) :
    totalCount (addCard m t c) = totalCount m + 1 := by
  induction m with
  | nil => simp [hasKey] at ht
  | cons p rest ih =>
    rw [show p = (p.1, p.2) from rfl, addCard]
    by_cases hpt : p.1 = t
    · rw [if_pos (by simpa using hpt)]
      have hcs : c ∉ p.2 := by
        rw [show p = (p.1, p.2) from rfl, cardsAt_cons, if_pos hpt] at hc
        exact hc
      rw [totalCount_cons, totalCount_cons]
      simp only [Finset.card_insert_of_not_mem hcs]
      omega
    · rw [if_neg (by simpa using hpt)]
      have ht2 : hasKey rest t = true := by
        simp only [hasKey, List.any_cons, Bool.or_eq_true] at ht
        rcases ht with h | h
        · exact absurd (by simpa using h) hpt
        · exact h
      have hc2 : c ∉ cardsAt rest t := by
        rw [show p = (p.1, p.2) from rfl, cardsAt_cons, if_neg hpt] at hc
        exact hc
      rw [totalCount_cons, totalCount_cons, ih ht2 hc2]
      omega

/-- When the scan finds the card nowhere, the deletion is a no-op. -/
theorem removeCard_eq_of_findBucket_none (m : BucketMap) (c : Flashcard)
    (h : findBucket m c = none) : removeCard m c = m := by
  induction m with
  | nil => rfl
  | cons p rest ih =>
    rw [show p = (p.1, p.2) from rfl, findBucket] at h
    by_cases hc : c ∈ p.2
    · rw [if_pos hc] at h
      exact absurd h (by simp)
    · rw [if_neg hc] at h
      rw [show p = (p.1, p.2) from rfl, removeCard, if_neg hc, ih h]

/-- When the scan finds the card, the deletion lowers the total count by
exactly one. -/
theorem totalCount_removeCard_of_found (m : BucketMap) (c : Flashcard) (k : Nat)
    (h : findBucket m c = some k) :
    totalCount (removeCard m c) + 1 = totalCount m := by
  induction m with
  | nil => simp [findBucket] at h
  | cons p rest ih =>
    rw [show p = (p.1, p.2) from rfl, findBucket] at h
    by_cases hc : c ∈ p.2
    · rw [show p = (p.1, p.2) from rfl, removeCard, if_pos hc,
        totalCount_cons, totalCount_cons]
      have := Finset.card_erase_add_one hc
      simp only [Prod.snd]
      omega
    · rw [if_neg hc] at h
      rw [show p = (p.1, p.2) from rfl, removeCard, if_neg hc,
        totalCount_cons, totalCount_cons, ← ih h]
      omega

/-- C5 amended: under the caller invariant that the card occupies at most
one bucket, `update` conserves the total card count when the card is found
in some bucket, and raises it by exactly one when the card is new (found in
no bucket). -/
theorem update_total_count (m : BucketMap) (c : Flashcard) (d : AnswerDifficulty)
    (hone : AtMostOneBucket m c) :
    totalCount (update m c d) =
      if findBucket m c = none then totalCount m + 1 else totalCount m := by
  have key : ∀ t : Nat,
      totalCount (addCard (if hasKey (removeCard m c) t then removeCard m c
        else removeCard m c ++ [(t, ∅)]) t c) = totalCount (removeCard m c) + 1 := by
    intro t
    have hnot : c ∉ cardsAt (removeCard m c) t := by
      rw [cardsAt_removeCard m c hone]
      exact Finset.not_mem_erase c _
    by_cases hh : hasKey (removeCard m c) t
    · rw [if_pos hh, totalCount_addCard _ _ _ hh hnot]
    · rw [if_neg hh]
      have hh2 : hasKey (removeCard m c ++ [(t, ∅)]) t = true := by
        simp [hasKey]
      have hnot2 : c ∉ cardsAt (removeCard m c ++ [(t, ∅)]) t := by
        rw [cardsAt_append_empty]
        exact hnot
      rw [totalCount_addCard _ _ _ hh2 hnot2, totalCount_append_empty]
  simp only [update]
  rw [key]
  cases hf : findBucket m c with
  | none =>
    rw [if_pos rfl, removeCard_eq_of_findBucket_none m c hf]
  | some k =>
    rw [if_neg (by simp)]
    have := totalCount_removeCard_of_found m c k hf
    omega

/-- Witness for the C5 amended theorem: a card present in bucket 0 answered
Easy keeps the total at one. -/
theorem update_total_count_witness :
    totalCount (update [(0, {cardA})] cardA AnswerDifficulty.Easy) =
      if findBucket [(0, {cardA})] cardA = none then totalCount [(0, {cardA})] + 1
      else totalCount [(0, {cardA})] :=
  update_total_count [(0, {cardA})] cardA AnswerDifficulty.Easy (by decide)

/-- Writing the map's entries into an array keeps the array's length. -/
theorem length_foldl_set (m : BucketMap) (init : List (Finset Flashcard)) :
    (m.foldl (fun res p => res.set p.1 p.2) init).length = init.length := by
  induction m generalizing init with
  | nil => rfl
  | cons p rest ih => rw [List.foldl_cons, ih, List.length_set]

/-- Reading the array after writing every map entry at its own key: a key of
the map reads its set, anything else still reads the initial array. -/
theorem getD_foldl_set (m : BucketMap) (init : List (Finset Flashcard))
    (hnk : NodupKeys m) (hlt : ∀ p ∈ m, p.1 < init.length) (k : Nat) :
    (m.foldl (fun res p => res.set p.1 p.2) init).getD k ∅ =
      if hasKey m k then cardsAt m k else init.getD k ∅ := by
  induction m generalizing init with
  | nil =>
    show init.getD k ∅ = if hasKey [] k then cardsAt [] k else init.getD k ∅
    rw [if_neg (by simp [hasKey])]
  | cons p rest ih =>
    obtain ⟨k0, s0⟩ := p
    rw [List.foldl_cons]
    have hnk2 : NodupKeys rest := by
      unfold NodupKeys at hnk ⊢
      simp only [List.map_cons, List.nodup_cons] at hnk
      exact hnk.2
    have hhead : k0 ∉ rest.map Prod.fst := by
      unfold NodupKeys at hnk
      simp only [List.map_cons, List.nodup_cons] at hnk
      exact hnk.1
    have hlt2 : ∀ q ∈ rest, q.1 < (init.set k0 s0).length := by
      rw [List.length_set]
      exact fun q hq => hlt q (List.mem_cons_of_mem _ hq)
    have hheadlt : k0 < init.length := hlt (k0, s0) (List.mem_cons_self _ _)
    rw [ih (init.set k0 s0) hnk2 hlt2]
    by_cases hk : hasKey rest k
    · have hpk : k0 ≠ k := by
        intro h
        exact hhead (h ▸ (hasKey_eq_true_iff rest k).1 hk)
      rw [if_pos hk,
        if_pos (show hasKey ((k0, s0) :: rest) k = true by
          simp only [hasKey, List.any_cons, Bool.or_eq_true]
          exact Or.inr hk),
        cardsAt_cons, if_neg hpk]
    · rw [if_neg hk]
      by_cases hkk : k0 = k
      · subst hkk
        rw [if_pos (show hasKey ((k0, s0) :: rest) k0 = true by
            simp [hasKey]),
          cardsAt_cons, if_pos rfl,
          List.getD_eq_getElem _ _ (by rw [List.length_set]; exact hheadlt)]
        simp
      · rw [if_neg (show ¬ hasKey ((k0, s0) :: rest) k = true by
          simp only [hasKey, List.any_cons, Bool.or_eq_true]
          rintro (h | h)
          · exact hkk (by simpa using h)
          · exact absurd h (by simp [hasKey] at hk ⊢; exact hk))]
        by_cases hklen : k < init.length
        · rw [List.getD_eq_getElem _ _ (by rw [List.length_set]; exact hklen),
            List.getD_eq_getElem _ _ hklen]
          exact List.getElem_set_ne hkk _
        · rw [List.getD_eq_default _ _ (by rw [List.length_set]; omega),
            List.getD_eq_default _ _ (by omega)]

/-- The fold computing the maximum never drops below its accumulator. -/
theorem le_foldl_max (m : BucketMap) : ∀ a : Nat,
    a ≤ m.foldl (fun acc q => max acc q.1) a := by
  induction m with
  | nil => intro a; exact Nat.le_refl a
  | cons q rest ih =>
    intro a
    rw [List.foldl_cons]
    exact le_trans (Nat.le_max_left a q.1) (ih (max a q.1))

/-- Every key of the map is bounded by the maximum fold. -/
theorem key_le_foldl_max (m : BucketMap) : ∀ (a : Nat), ∀ p ∈ m,
    p.1 ≤ m.foldl (fun acc q => max acc q.1) a := by
  induction m with
  | nil => intro a p hp; simp at hp
  | cons q rest ih =>
    intro a p hp
    rw [List.foldl_cons]
    rcases List.mem_cons.1 hp with h | h
    · subst h
      exact le_trans (Nat.le_max_right a p.1) (le_foldl_max rest (max a p.1))
    · exact ih (max a q.1) p h

/-- The maximum fold is either the accumulator or an attained key. -/
theorem foldl_max_attained (m : BucketMap) : ∀ a : Nat,
    m.foldl (fun acc q => max acc q.1) a = a ∨
      ∃ p ∈ m, m.foldl (fun acc q => max acc q.1) a = p.1 := by
  induction m with
  | nil => intro a; exact Or.inl rfl
  | cons q rest ih =>
    intro a
    rw [List.foldl_cons]
    rcases ih (max a q.1) with h | ⟨p, hp, he⟩
    · by_cases hq : a ≤ q.1
      · exact Or.inr ⟨q, List.mem_cons_self _ _, by rw [h]; exact max_eq_right hq⟩
      · exact Or.inl (by rw [h]; exact max_eq_left (le_of_not_le hq))
    · exact Or.inr ⟨p, List.mem_cons_of_mem _ hp, he⟩

/-- Every key is at most `maxKey`. -/
theorem key_le_maxKey (m : BucketMap) : ∀ p ∈ m, p.1 ≤ maxKey m :=
  key_le_foldl_max m 0

/-- On a non-empty map `maxKey` is an actual key. -/
theorem maxKey_attained (m : BucketMap) (hne : m ≠ []) :
    ∃ p ∈ m, p.1 = maxKey m := by
  rcases foldl_max_attained m 0 with h | ⟨p, hp, he⟩
  · cases m with
    | nil => exact absurd rfl hne
    | cons q rest =>
      refine ⟨q, List.mem_cons_self _ _, ?_⟩
      have hle := key_le_maxKey (q :: rest) q (List.mem_cons_self _ _)
      have hmk : maxKey (q :: rest) = 0 := h
      omega
  · exact ⟨p, hp, he.symm⟩

/-- Two distinct list members both satisfying a predicate force a count of
at least two. -/
theorem two_le_countP {α : Type} [DecidableEq α] {p : α → Bool} {l : List α}
    {a b : α} (ha : a ∈ l) (hb : b ∈ l) (hab : a ≠ b)
    (hpa : p a = true) (hpb : p b = true) : 2 ≤ l.countP p := by
  rw [List.countP_eq_length_filter]
  have haf : a ∈ l.filter p := List.mem_filter.2 ⟨ha, hpa⟩
  have hbf : b ∈ l.filter p := List.mem_filter.2 ⟨hb, hpb⟩
  have hbe : b ∈ (l.filter p).erase a := (List.mem_erase_of_ne hab.symm).2 hbf
  have h1 : 0 < ((l.filter p).erase a).length := List.length_pos_of_mem hbe
  have h2 : ((l.filter p).erase a).length = (l.filter p).length - 1 :=
    List.length_erase_of_mem haf
  omega

/-- Under the at-most-one invariant a card is read from at most one key. -/
theorem cardsAt_unique (m : BucketMap) (c : Flashcard)
    (hone : m.countP (fun p => decide (c ∈ p.2)) ≤ 1) (j k : Nat)
    (hj : c ∈ cardsAt m j) (hk : c ∈ cardsAt m k) : j = k := by
  by_contra hjk
  obtain ⟨sj, hsj, hcj⟩ := exists_of_mem_cardsAt m j c hj
  obtain ⟨sk, hsk, hck⟩ := exists_of_mem_cardsAt m k c hk
  have hne : (j, sj) ≠ (k, sk) := by
    intro h
    exact hjk (congrArg Prod.fst h)
  have := two_le_countP (p := fun q => decide (c ∈ q.2)) hsj hsk hne
    (decide_eq_true hcj) (decide_eq_true hck)
  omega

/-- C3: on a non-empty map whose cards occupy at most one bucket each,
`toBucketSets` yields an array of length (largest key present) + 1 whose
entry at index k is the input's set for key k (the empty set when k is not
a key); every card appears at the index equal to its bucket key, at that
index only. -/
theorem toBucketSets_spec (m : BucketMap) (hne : m ≠ []) (hnk : NodupKeys m)
    (hone : ∀ c : Flashcard, m.countP (fun p => decide (c ∈ p.2)) ≤ 1) :
    ∃ arr, toBucketSets m = some arr ∧
      arr.length = maxKey m + 1 ∧
      (∀ p ∈ m, p.1 ≤ maxKey m) ∧
      (∃ p ∈ m, p.1 = maxKey m) ∧
      (∀ k, k < arr.length → arr.getD k ∅ = cardsAt m k) ∧
      (∀ (c : Flashcard) (k : Nat), c ∈ cardsAt m k →
        k < arr.length ∧ c ∈ arr.getD k ∅) ∧
      (∀ (c : Flashcard) (j k : Nat), j < arr.length → k < arr.length →
        c ∈ arr.getD j ∅ → c ∈ arr.getD k ∅ → j = k) := by
  have hlt : ∀ p ∈ m, p.1 < (List.replicate (maxKey m + 1) (∅ : Finset Flashcard)).length := by
    intro p hp
    rw [List.length_replicate]
    have := key_le_maxKey m p hp
    omega
  refine ⟨m.foldl (fun res p => res.set p.1 p.2)
      (List.replicate (maxKey m + 1) ∅), ?_, ?_, key_le_maxKey m,
      maxKey_attained m hne, ?_, ?_, ?_⟩
  · rw [toBucketSets, if_neg (by simp [List.isEmpty_iff, hne])]
  · rw [length_foldl_set, List.length_replicate]
  · intro k hk
    rw [length_foldl_set, List.length_replicate] at hk
    rw [getD_foldl_set m _ hnk hlt k]
    by_cases hh : hasKey m k
    · rw [if_pos hh]
    · rw [if_neg hh, cardsAt_eq_empty_of_not_hasKey m k (by simpa using hh),
        List.getD_eq_getElem _ _ (by rw [List.length_replicate]; exact hk)]
      exact List.getElem_replicate _ _
  · intro c k hc
    obtain ⟨s, hs, hcs⟩ := exists_of_mem_cardsAt m k c hc
    have hklt : k < (m.foldl (fun res p => res.set p.1 p.2)
        (List.replicate (maxKey m + 1) ∅)).length := by
      rw [length_foldl_set, List.length_replicate]
      have := key_le_maxKey m (k, s) hs
      simp only [Prod.fst] at this
      omega
    refine ⟨hklt, ?_⟩
    rw [getD_foldl_set m _ hnk hlt k,
      if_pos (by
        rw [hasKey_eq_true_iff]
        exact List.mem_map_of_mem Prod.fst hs)]
    exact hc
  · intro c j k hjlt hklt hcj hck
    rw [length_foldl_set, List.length_replicate] at hjlt hklt
    rw [getD_foldl_set m _ hnk hlt j] at hcj
    rw [getD_foldl_set m _ hnk hlt k] at hck
    have hcj2 : c ∈ cardsAt m j := by
      by_cases hh : hasKey m j
      · rwa [if_pos hh] at hcj
      · rw [if_neg hh, List.getD_eq_getElem _ _
            (by rw [List.length_replicate]; exact hjlt)] at hcj
        rw [List.getElem_replicate] at hcj
        exact absurd hcj (Finset.not_mem_empty c)
    have hck2 : c ∈ cardsAt m k := by
      by_cases hh : hasKey m k
      · rwa [if_pos hh] at hck
      · rw [if_neg hh, List.getD_eq_getElem _ _
            (by rw [List.length_replicate]; exact hklt)] at hck
        rw [List.getElem_replicate] at hck
        exact absurd hck (Finset.not_mem_empty c)
    exact cardsAt_unique m c (hone c) j k hcj2 hck2

/-- Witness for C3 on the map with the single entry 2 ↦ {cardA}: the array
has length 3 with {cardA} at index 2. -/
theorem toBucketSets_spec_witness :
    ∃ arr, toBucketSets [(2, {cardA})] = some arr ∧
      arr.length = maxKey [(2, {cardA})] + 1 ∧
      (∀ p ∈ ([(2, {cardA})] : BucketMap), p.1 ≤ maxKey [(2, {cardA})]) ∧
      (∃ p ∈ ([(2, {cardA})] : BucketMap), p.1 = maxKey [(2, {cardA})]) ∧
      (∀ k, k < arr.length → arr.getD k ∅ = cardsAt [(2, {cardA})] k) ∧
      (∀ (c : Flashcard) (k : Nat), c ∈ cardsAt [(2, {cardA})] k →
        k < arr.length ∧ c ∈ arr.getD k ∅) ∧
      (∀ (c : Flashcard) (j k : Nat), j < arr.length → k < arr.length →
        c ∈ arr.getD j ∅ → c ∈ arr.getD k ∅ → j = k) :=
  toBucketSets_spec [(2, {cardA})] (by decide) (by decide)
    (fun c => le_trans (List.countP_le_length _) (by decide))

/-- Folding an addition equals the initial value plus the mapped sum. -/
theorem foldl_add_eq_sum {α : Type} (l : List α) (g : α → Nat) :
    ∀ a : Nat, l.foldl (fun acc x => acc + g x) a = a + (l.map g).sum := by
  induction l with
  | nil => intro a; simp
  | cons x rest ih =>
    intro a
    rw [List.foldl_cons, ih, List.map_cons, List.sum_cons]
    omega

/-- Folding a plain increment counts the length. -/
theorem foldl_succ_eq_length {α : Type} (l : List α) : ∀ a : Nat,
    l.foldl (fun acc _ => acc + 1) a = a + l.length := by
  induction l with
  | nil => intro a; simp
  | cons x rest ih =>
    intro a
    rw [List.foldl_cons, ih, List.length_cons]
    omega

/-- Folding a guarded increment counts the matching entries. -/
theorem foldl_count_eq_countP {α : Type} (l : List α) (p : α → Prop)
    [DecidablePred p] :
    ∀ a : Nat, l.foldl (fun acc x => if p x then acc + 1 else acc) a =
      a + l.countP (fun x => decide (p x)) := by
  induction l with
  | nil => intro a; simp
  | cons x rest ih =>
    intro a
    rw [List.foldl_cons, List.countP_cons, ih]
    by_cases hx : p x
    · rw [if_pos hx, if_pos (decide_eq_true hx)]
      omega
    · rw [if_neg hx, if_neg (by simpa using hx)]
      omega

/-- The bucket-distribution fold leaves keys absent from the map alone. -/
theorem bucketDistribution_foldl_not_mem (m : BucketMap) :
    ∀ (f : Nat → Option Nat) (k : Nat), (∀ p ∈ m, p.1 ≠ k) →
      (m.foldl (fun f p => fun j => if j = p.1 then some p.2.card else f j) f) k
        = f k := by
  induction m with
  | nil => intro f k _; rfl
  | cons p rest ih =>
    intro f k h
    rw [List.foldl_cons, ih _ k (fun q hq => h q (List.mem_cons_of_mem _ hq))]
    exact if_neg (fun hk => h p (List.mem_cons_self _ _) hk.symm)

/-- The bucket-distribution fold records each present key's set size. -/
theorem bucketDistribution_foldl_mem (m : BucketMap) :
    ∀ (f : Nat → Option Nat) (k : Nat) (s : Finset Flashcard),
      NodupKeys m → (k, s) ∈ m →
      (m.foldl (fun f p => fun j => if j = p.1 then some p.2.card else f j) f) k
        = some s.card := by
  induction m with
  | nil => intro f k s _ hmem; simp at hmem
  | cons p rest ih =>
    intro f k s hnk hmem
    have hnk2 : NodupKeys rest := by
      unfold NodupKeys at hnk ⊢
      rw [show p = (p.1, p.2) from rfl] at hnk
      simp only [List.map_cons, List.nodup_cons] at hnk
      exact hnk.2
    have hhead : p.1 ∉ rest.map Prod.fst := by
      unfold NodupKeys at hnk
      rw [show p = (p.1, p.2) from rfl] at hnk
      simp only [List.map_cons, List.nodup_cons] at hnk
      exact hnk.1
    rw [List.foldl_cons]
    rcases List.mem_cons.1 hmem with h | h
    · have hk : p.1 = k := (congrArg Prod.fst h).symm
      have hs : p.2 = s := (congrArg Prod.snd h).symm
      have hnotk : ∀ q ∈ rest, q.1 ≠ k := by
        intro q hq hqk
        exact hhead (hk ▸ hqk ▸ List.mem_map_of_mem Prod.fst hq)
      rw [bucketDistribution_foldl_not_mem rest _ k hnotk, if_pos hk.symm, hs]
    · exact ih _ k s hnk2 h

/-- The practice-history fold keyed at one day: absent when no entry has
that day, otherwise the running value plus the number of matching entries. -/
theorem practiceHistory_foldl (h : List PracticeRecord) :
    ∀ (f : Nat → Option Nat) (day : Nat),
      (h.foldl
        (fun f r => fun k => if k = r.day then some ((f r.day).getD 0 + 1) else f k)
        f) day =
        if h.countP (fun r => decide (r.day = day)) = 0 then f day
        else some ((f day).getD 0 + h.countP (fun r => decide (r.day = day))) := by
  induction h with
  | nil => intro f day; simp
  | cons r rest ih =>
    intro f day
    rw [List.foldl_cons, ih, List.countP_cons]
    by_cases hd : r.day = day
    · subst hd
      rw [if_pos (show r.day = r.day from rfl), if_pos (decide_eq_true rfl)]
      have hc1 : ¬ (rest.countP (fun x => decide (x.day = r.day)) + 1 = 0) := by
        omega
      rw [if_neg hc1]
      by_cases hz : rest.countP (fun x => decide (x.day = r.day)) = 0
      · rw [if_pos hz, hz]
      · rw [if_neg hz, Option.getD_some]
        have harith : (f r.day).getD 0 + 1 +
            rest.countP (fun x => decide (x.day = r.day)) =
            (f r.day).getD 0 + (rest.countP (fun x => decide (x.day = r.day)) + 1) := by
          omega
        rw [harith]
    · rw [if_neg (show ¬ day = r.day from fun h => hd h.symm),
        if_neg (show ¬ decide (r.day = day) = true by simp [hd]), Nat.add_zero]

/-- C6: `computeProgress` returns totalCards = sum of set sizes,
bucketDistribution mapping each present key to its set's size,
averageBucket = (sum of bucketIndex x count) / totalCards (0 when
totalCards is 0), practiceHistory counting the history entries per day, and
accuracyRate = correct / total x 100 (0 on empty history). -/
theorem computeProgress_spec (m : BucketMap) (h : List PracticeRecord)
    (hnk : NodupKeys m) :
    (computeProgress m h).totalCards = (m.map (fun p => p.2.card)).sum ∧
    (∀ k s, (k, s) ∈ m → (computeProgress m h).bucketDistribution k = some s.card) ∧
    (computeProgress m h).averageBucket =
      (if (m.map (fun p => p.2.card)).sum = 0 then 0
        else (((m.map (fun p => p.1 * p.2.card)).sum : Nat) : ℚ) /
          (((m.map (fun p => p.2.card)).sum : Nat) : ℚ)) ∧
    (∀ day : Nat, (computeProgress m h).practiceHistory day =
      (if h.countP (fun r => decide (r.day = day)) = 0 then none
        else some (h.countP (fun r => decide (r.day = day))))) ∧
    (computeProgress m h).accuracyRate =
      (if h = [] then 0
        else (h.countP (fun r => decide (r.difficulty = AnswerDifficulty.Hard ∨
            r.difficulty = AnswerDifficulty.Easy)) : ℚ) / (h.length : ℚ) * 100) := by
  have htc : totalCardsOf m = (m.map (fun p => p.2.card)).sum := by
    unfold totalCardsOf
    rw [foldl_add_eq_sum, Nat.zero_add]
  have htb : totalBucketSumOf m = (m.map (fun p => p.1 * p.2.card)).sum := by
    unfold totalBucketSumOf
    rw [foldl_add_eq_sum, Nat.zero_add]
  have hta : totalAttemptsOf h = h.length := by
    unfold totalAttemptsOf
    rw [foldl_succ_eq_length, Nat.zero_add]
  have hca : correctAttemptsOf h =
      h.countP (fun r => decide (r.difficulty = AnswerDifficulty.Hard ∨
        r.difficulty = AnswerDifficulty.Easy)) := by
    unfold correctAttemptsOf
    rw [foldl_count_eq_countP h
      (fun r => r.difficulty = AnswerDifficulty.Hard ∨
        r.difficulty = AnswerDifficulty.Easy), Nat.zero_add]
  refine ⟨?_, ?_, ?_, ?_, ?_⟩
  · show totalCardsOf m = _
    exact htc
  · intro k s hmem
    show bucketDistributionOf m k = some s.card
    unfold bucketDistributionOf
    exact bucketDistribution_foldl_mem m (fun _ => none) k s hnk hmem
  · show (if 0 < totalCardsOf m
        then (totalBucketSumOf m : ℚ) / (totalCardsOf m : ℚ) else 0) = _
    rw [htc, htb]
    by_cases hz : (m.map (fun p => p.2.card)).sum = 0
    · rw [if_pos hz, if_neg (by omega)]
    · rw [if_neg hz, if_pos (by omega)]
  · intro day
    show practiceHistoryOf h day = _
    unfold practiceHistoryOf
    rw [practiceHistory_foldl h (fun _ => none) day]
    by_cases hz : h.countP (fun r => decide (r.day = day)) = 0
    · rw [if_pos hz, if_pos hz]
    · rw [if_neg hz, if_neg hz]
      simp
  · show (if 0 < totalAttemptsOf h
        then (correctAttemptsOf h : ℚ) / (totalAttemptsOf h : ℚ) * 100 else 0) = _
    rw [hta, hca]
    by_cases hhe : h = []
    · subst hhe
      rw [if_pos rfl, if_neg (by simp)]
    · rw [if_neg hhe, if_pos (List.length_pos.2 hhe)]

/-- Witness for C6 at the spec's example buckets {0: {A, B}, 2: {C}} and a
three-entry history with two correct answers. -/
theorem computeProgress_spec_witness :
    (computeProgress [(0, {cardA, cardB}), (2, {cardC})]
        [⟨1, cardA, 1⟩, ⟨1, cardB, 0⟩, ⟨2, cardA, 2⟩]).accuracyRate =
      (if ([⟨1, cardA, 1⟩, ⟨1, cardB, 0⟩, ⟨2, cardA, 2⟩] : List PracticeRecord) = []
        then 0
        else (([⟨1, cardA, 1⟩, ⟨1, cardB, 0⟩, ⟨2, cardA, 2⟩] :
            List PracticeRecord).countP
            (fun r => decide (r.difficulty = AnswerDifficulty.Hard ∨
              r.difficulty = AnswerDifficulty.Easy)) : ℚ) /
          (([⟨1, cardA, 1⟩, ⟨1, cardB, 0⟩, ⟨2, cardA, 2⟩] :
            List PracticeRecord).length : ℚ) * 100) :=
  (computeProgress_spec [(0, {cardA, cardB}), (2, {cardC})]
    [⟨1, cardA, 1⟩, ⟨1, cardB, 0⟩, ⟨2, cardA, 2⟩] (by decide)).2.2.2.2
